import Mathlib

/-!
Verification of the fixed-point numeric engine described in the repository's
design document.  The engine's implementation module is not present in the
repository snapshot (only its test-suite is), so the data model and the
operator semantics below are modelled from the design document, pinned where
possible to the behaviour asserted by `src/tests/test_operators/__init__.py`.
-/

namespace Fixed

/-- Modelled from the spec: rounding mode enumeration of the policy set.
The Python names `in` and `out` are Lean keywords and are rendered
`inward` / `outward` here. -/
inductive Rounding
  | convergent
  | nearest
  | down
  | up
  | inward
  | outward
deriving DecidableEq

/-- Modelled from the spec: overflow resolution mode, clamp or wrap. -/
inductive OverflowMode
  | clamp
  | wrap
deriving DecidableEq

/-- Modelled from the spec: alert level of each of the three alert channels. -/
inductive Alert
  | ignore
  | warning
  | error
deriving DecidableEq

/-- Modelled from the spec: the policy set of a fixed-point value: rounding
mode, overflow mode, three independent alert levels, and the string base. -/
structure Policy where
  rounding : Rounding
  overflow : OverflowMode
  overflow_alert : Alert
  mismatch_alert : Alert
  implicit_cast_alert : Alert
  str_base : ℕ
deriving DecidableEq

/-- Default policy, as asserted by the test-suite's attribute checks:
rounding `nearest`, overflow `clamp`, overflow alert `error`, mismatch and
implicit-cast alerts `warning`, string base 16. -/
def defaultPolicy : Policy :=
  { rounding := .nearest
    overflow := .clamp
    overflow_alert := .error
    mismatch_alert := .warning
    implicit_cast_alert := .warning
    str_base := 16 }

/-- Modelled from the spec: a fixed-point value: signedness, integer bit
count `m`, fraction bit count `n`, the raw bit store (an unsigned integer of
width `m+n` holding the two's-complement pattern when signed), and the
policy set. -/
structure FixedPoint where
  signed : Bool
  m : ℕ
  n : ℕ
  bits : ℕ
  policy : Policy
deriving DecidableEq

/-- Total width of the bit store. -/
def width (x : FixedPoint) : ℕ := x.m + x.n

/-- Bit mask of the store: `2^(m+n) - 1`. -/
def bitmask (x : FixedPoint) : ℕ := 2 ^ width x - 1

/-- Structure invariants of a fixed-point value: the bit store fits in the
declared width, the width is at least one bit, and a signed value reserves a
sign bit (`m ≥ 1`). -/
def wf (x : FixedPoint) : Prop :=
  x.bits < 2 ^ width x ∧ 1 ≤ width x ∧ (x.signed = true → 1 ≤ x.m)

/-- The signed integer denoted by the bit store: the two's-complement reading
when the value is signed and the sign bit is set, the raw store otherwise. -/
def sval (x : FixedPoint) : ℤ :=
  if x.signed = true ∧ 2 ^ (width x - 1) ≤ x.bits then
    (x.bits : ℤ) - 2 ^ width x
  else
    (x.bits : ℤ)

/-- The represented rational value: the signed integer scaled by `2^(-n)`. -/
def val (x : FixedPoint) : ℚ := (sval x : ℚ) / 2 ^ x.n

/-- Bit pattern of the minimum representable value at `x`'s format. -/
def minBits (x : FixedPoint) : ℕ :=
  if x.signed = true then 2 ^ (width x - 1) else 0

/-- Bit pattern of the maximum representable value at `x`'s format. -/
def maxBits (x : FixedPoint) : ℕ :=
  if x.signed = true then 2 ^ (width x - 1) - 1 else 2 ^ width x - 1

/-- A value is marked clamped when its bit store sits at an extreme of the
representable range. -/
def clamped (x : FixedPoint) : Bool :=
  decide (x.bits = minBits x) || decide (x.bits = maxBits x)

/-- Encode an integer into a `w`-bit store, discarding high-order bits
(two's-complement pattern, i.e. the integer modulo `2^w`). -/
def encode (w : ℕ) (v : ℤ) : ℕ := (v % (2 : ℤ) ^ w).toNat

/-- Modelled from the spec: the error taxonomy of the engine. -/
inductive FpError
  | FormatMismatch
  | Overflow
  | NegationOfUnsigned
  | DivideByZero
  | UnsupportedOperator (op lhs rhs : String)
  | InvalidExponent
  | TypeConformance
deriving DecidableEq

/-- Structured records emitted on a `warning`-level alert: an overflow
record, a format-adjustment record carrying the new format, or a
property-mismatch record. -/
inductive LogRec
  | overflowWarning
  | formatAdjust (m n : ℕ)
  | mismatchWarning
deriving DecidableEq

/-- Warning records produced by cross-operand mismatch detection when the two
operands' policy property sets differ and the left operand's mismatch alert
level is `warning`. -/
def mismatchRecs (a b : FixedPoint) : List LogRec :=
  if a.policy = b.policy then []
  else match a.policy.mismatch_alert with
    | .warning => [.mismatchWarning]
    | _ => []

/-- Modelled from the spec: result integer-bit count of `+`/`-`:
`max(m1,m2)` plus one when either operand is signed. -/
def subM (a b : FixedPoint) : ℕ :=
  max a.m b.m + (if a.signed || b.signed then 1 else 0)

/-- Modelled from the spec: result fraction-bit count of `+`/`-`:
`max(n1,n2)`. -/
def subN (a b : FixedPoint) : ℕ := max a.n b.n

/-- The exact difference of the two operands' values, scaled to the result's
fraction-bit count (an integer, since the result keeps the wider fraction). -/
def diffScaled (a b : FixedPoint) : ℤ :=
  sval a * 2 ^ (subN a b - a.n) - sval b * 2 ^ (subN a b - b.n)

/-- Whether the integer `v` is representable at a (signedness, width)
format. -/
def inRangeB (s : Bool) (w : ℕ) (v : ℤ) : Bool :=
  if s then decide (-((2 : ℤ) ^ (w - 1)) ≤ v) && decide (v < 2 ^ (w - 1))
  else decide (0 ≤ v) && decide (v < 2 ^ w)

/-- Modelled from the spec: overflow resolution.  `clamp` saturates to the
nearest representable extreme; `wrap` discards high-order bits, keeping the
two's-complement pattern at the given width. -/
def resolveOverflow (s : Bool) (w : ℕ) (mode : OverflowMode) (v : ℤ) : ℕ :=
  match mode with
  | .clamp =>
      if v < (if s then -((2 : ℤ) ^ (w - 1)) else 0) then
        (if s then 2 ^ (w - 1) else 0)
      else
        (if s then 2 ^ (w - 1) - 1 else 2 ^ w - 1)
  | .wrap => encode w v

/-- Modelled from the spec: binary subtraction.  The result format is
`m = max(m1,m2) (+1 if either signed)`, `n = max(n1,n2)`, signed when either
operand is signed.  A mathematically unrepresentable result (in particular an
unsigned difference that is negative) is an overflow, resolved per the left
operand's overflow policy: `error` aborts, otherwise the resolved result is
produced, with one overflow record under `warning`. -/
def fpsub (a b : FixedPoint) : Except FpError (FixedPoint × List LogRec) :=
  if a.policy ≠ b.policy ∧ a.policy.mismatch_alert = .error then
    .error .FormatMismatch
  else
    let s := a.signed || b.signed
    let w := subM a b + subN a b
    let d := diffScaled a b
    if inRangeB s w d then
      .ok (⟨s, subM a b, subN a b, encode w d, a.policy⟩, mismatchRecs a b)
    else
      match a.policy.overflow_alert with
      | .error => .error .Overflow
      | .warning =>
          .ok (⟨s, subM a b, subN a b, resolveOverflow s w a.policy.overflow d, a.policy⟩,
               mismatchRecs a b ++ [.overflowWarning])
      | .ignore =>
          .ok (⟨s, subM a b, subN a b, resolveOverflow s w a.policy.overflow d, a.policy⟩,
               mismatchRecs a b)

/-- Modelled from the spec: unary negation.  Fatal on an unsigned operand.
When the operand is the minimum representable value (sign bit set, remaining
bits zero) the negation overflows: the `error` alert aborts, while `warning`
and `ignore` grow `m` by one to accommodate the result, `warning` logging two
records (the overflow, then the format adjustment).  Otherwise the format is
preserved and the bit store becomes the two's complement of the operand's. -/
def fpneg (x : FixedPoint) : Except FpError (FixedPoint × List LogRec) :=
  if x.signed = false then .error .NegationOfUnsigned
  else if x.bits = 2 ^ (width x - 1) then
    match x.policy.overflow_alert with
    | .error => .error .Overflow
    | .warning =>
        .ok ({ x with m := x.m + 1, bits := encode (x.m + 1 + x.n) (-sval x) },
             [.overflowWarning, .formatAdjust (x.m + 1) x.n])
    | .ignore =>
        .ok ({ x with m := x.m + 1, bits := encode (x.m + 1 + x.n) (-sval x) }, [])
  else
    .ok ({ x with bits := encode (width x) (-sval x) }, [])

/-- The argument of the ceil-log2 in floor division's unsigned result-format
formula: `2^(den.m + num.n) - 2^(num.n - den.n)`. -/
def fdivArg (a b : FixedPoint) : ℚ :=
  2 ^ (b.m + a.n) - (2 : ℚ) ^ ((a.n : ℤ) - (b.n : ℤ))

/-- Modelled from the spec: floor division `//`.  A zero-bit divisor is a
fatal `DivideByZero`.  If either operand's represented value is negative the
result format is `m = num.m + den.n + 1`, `n = den.m + num.n`, signed;
otherwise `m = num.m + den.n`, `n = ceil(log2(2^(den.m+num.n) -
2^(num.n-den.n)))`, unsigned.  The result is the exact mathematical floor of
the quotient of the represented values, encoded at the new format. -/
def floordiv (a b : FixedPoint) : Except FpError FixedPoint :=
  if b.bits = 0 then .error .DivideByZero
  else if a.policy ≠ b.policy ∧ a.policy.mismatch_alert = .error then
    .error .FormatMismatch
  else
    let q : ℤ := ⌊val a / val b⌋
    if val a < 0 ∨ val b < 0 then
      .ok ⟨true, a.m + b.n + 1, b.m + a.n,
           encode (a.m + b.n + 1 + (b.m + a.n)) (q * 2 ^ (b.m + a.n)), a.policy⟩
    else
      let nr := (Int.clog 2 (fdivArg a b)).toNat
      .ok ⟨false, a.m + b.n, nr, encode (a.m + b.n + nr) (q * 2 ^ nr), a.policy⟩

/-- Modelled from the spec: modulo `%`.  A zero-bit divisor is a fatal
`DivideByZero`.  The result format is `m = den.m`, `n = max(num.n, den.n)`,
signed as the divisor; the result is the exact mathematical modulo of the
represented values, encoded at the new format. -/
def fmod (a b : FixedPoint) : Except FpError FixedPoint :=
  if b.bits = 0 then .error .DivideByZero
  else if a.policy ≠ b.policy ∧ a.policy.mismatch_alert = .error then
    .error .FormatMismatch
  else
    let nr := max a.n b.n
    let r : ℚ := val a - val b * (⌊val a / val b⌋ : ℤ)
    .ok ⟨b.signed, b.m, nr, encode (b.m + nr) ⌊r * 2 ^ nr⌋, a.policy⟩

/-- Modelled from the spec: `divmod` performs the floor division and the
modulo in one operation, producing the pair of results. -/
def fdivmod (a b : FixedPoint) : Except FpError (FixedPoint × FixedPoint) :=
  if b.bits = 0 then .error .DivideByZero
  else if a.policy ≠ b.policy ∧ a.policy.mismatch_alert = .error then
    .error .FormatMismatch
  else
    let q : ℤ := ⌊val a / val b⌋
    let d : FixedPoint :=
      if val a < 0 ∨ val b < 0 then
        ⟨true, a.m + b.n + 1, b.m + a.n,
         encode (a.m + b.n + 1 + (b.m + a.n)) (q * 2 ^ (b.m + a.n)), a.policy⟩
      else
        let nr := (Int.clog 2 (fdivArg a b)).toNat
        ⟨false, a.m + b.n, nr, encode (a.m + b.n + nr) (q * 2 ^ nr), a.policy⟩
    let nr := max a.n b.n
    let r : ℚ := val a - val b * (q : ℚ)
    .ok (d, ⟨b.signed, b.m, nr, encode (b.m + nr) ⌊r * 2 ^ nr⌋, a.policy⟩)

/-- Modelled from the spec and the test-suite: exponentiation with an integer
exponent.  Only positive integer exponents are supported (the test-suite
asserts that zero and negative exponents raise); the result format is
`m = m_base * y`, `n = n_base * y`, with the base's signedness, and the value
is the exact `y`-th power of the base's value. -/
def fpow (x : FixedPoint) (y : ℤ) : Except FpError FixedPoint :=
  if y ≤ 0 then .error .InvalidExponent
  else
    .ok ⟨x.signed, x.m * y.toNat, x.n * y.toNat,
         encode ((x.m + x.n) * y.toNat) (sval x ^ y.toNat), x.policy⟩

/-- An operand of a heterogeneous binary operation: a fixed-point value, a
native integer, or a native float (floats are dyadic rationals). -/
inductive Operand
  | fp (x : FixedPoint)
  | int (i : ℤ)
  | float (q : ℚ)

/-- Host-language type name of an operand, as used in error messages. -/
def Operand.typeName : Operand → String
  | .fp _ => "FixedPoint"
  | .int _ => "int"
  | .float _ => "float"

/-- Modelled from the spec and the test-suite: exponentiation dispatch on the
exponent's kind.  Any exponent that is not a native integer (a float, or a
fixed-point value) is a fatal `InvalidExponent`. -/
def fpowE (x : FixedPoint) (e : Operand) : Except FpError FixedPoint :=
  match e with
  | .int i => fpow x i
  | .float _ => .error .InvalidExponent
  | .fp _ => .error .InvalidExponent

/-- Modelled from the spec and the test-suite: reflected exponentiation with
a native base and a fixed-point exponent is a fatal `UnsupportedOperator`
naming both operand type names. -/
def rpowN (base : Operand) : Except FpError FixedPoint :=
  .error (.UnsupportedOperator "** or pow()" base.typeName "FixedPoint")

/-- Modelled from the spec: left shift by a native integer amount.  The width
is unchanged; a non-negative amount shifts the bit store left logically,
truncated to the current width, and a negative amount is the corresponding
right shift (sign-extending on a signed value with the sign bit set, which is
what shifting the signed integer `sval` performs). -/
def fshl (x : FixedPoint) (s : ℤ) : FixedPoint :=
  if 0 ≤ s then { x with bits := (x.bits <<< s.toNat) % 2 ^ width x }
  else { x with bits := ((sval x / 2 ^ (-s).toNat) % (2 : ℤ) ^ width x).toNat }

/-- Modelled from the spec: right shift by a native integer amount.  The
width is unchanged; a non-negative amount shifts the signed integer right
(arithmetic, i.e. sign-extending, on a signed value with the sign bit set)
and re-masks to the current width, and a negative amount is the
corresponding logical left shift truncated to the current width. -/
def fshr (x : FixedPoint) (s : ℤ) : FixedPoint :=
  if 0 ≤ s then { x with bits := ((sval x / 2 ^ s.toNat) % (2 : ℤ) ^ width x).toNat }
  else { x with bits := (x.bits <<< (-s).toNat) % 2 ^ width x }

/-- Modelled from the spec: `&` with a native integer on the right.  The
fixed-point operand's own format is preserved; only the bit store changes,
masked to that operand's own width. -/
def fandInt (x : FixedPoint) (i : ℤ) : FixedPoint :=
  { x with bits := ((Int.land x.bits i) % (2 : ℤ) ^ width x).toNat }

/-- Reflected `&`: a native integer on the left, a fixed-point value on the
right, producing a result in the fixed-point operand's own format. -/
def randInt (i : ℤ) (x : FixedPoint) : FixedPoint :=
  { x with bits := ((Int.land i x.bits) % (2 : ℤ) ^ width x).toNat }

/-- Modelled from the spec: `|` with a native integer on the right. -/
def forInt (x : FixedPoint) (i : ℤ) : FixedPoint :=
  { x with bits := ((Int.lor x.bits i) % (2 : ℤ) ^ width x).toNat }

/-- Reflected `|`: a native integer on the left. -/
def rorInt (i : ℤ) (x : FixedPoint) : FixedPoint :=
  { x with bits := ((Int.lor i x.bits) % (2 : ℤ) ^ width x).toNat }

/-- Modelled from the spec: `^` with a native integer on the right. -/
def fxorInt (x : FixedPoint) (i : ℤ) : FixedPoint :=
  { x with bits := ((Int.xor x.bits i) % (2 : ℤ) ^ width x).toNat }

/-- Reflected `^`: a native integer on the left. -/
def rxorInt (i : ℤ) (x : FixedPoint) : FixedPoint :=
  { x with bits := ((Int.xor i x.bits) % (2 : ℤ) ^ width x).toNat }

/-- A registered two-argument callback for an operator with no native
fixed-point definition. -/
def Callback := Operand → Operand → FixedPoint

/-- Modelled from the spec: dispatch of an operator with no native
definition (`/`, `/=`, `@`, `@=`).  The callback registry is consulted by
operator symbol: when a callback is registered it is invoked on
`(left, right)` and its result returned verbatim with no format validation;
otherwise (including after registering `None`) the operation is a fatal
`UnsupportedOperator` naming both operand type names and the operator
spelling. -/
def callbackOp (registered : Option Callback) (op : String) (a b : Operand) :
    Except FpError FixedPoint :=
  match registered with
  | none => .error (.UnsupportedOperator op a.typeName b.typeName)
  | some f => .ok (f a b)

/-- Modelled from the spec: `min_m(value)`: the minimal integer-bit count
(including a sign bit when the value is negative) needed to represent the
value's integer part without overflow. -/
def min_m (q : ℚ) : ℕ :=
  if 0 ≤ q then Nat.size ⌊q⌋.toNat else Nat.size (-⌊q⌋ - 1).toNat + 1

/-- Modelled from the spec: `min_n(value)`: the minimal fraction-bit count
needed to represent the value's fractional part exactly (the value is a
dyadic rational, so its reduced denominator is a power of two). -/
def min_n (q : ℚ) : ℕ := Nat.log2 q.den

/-- Modelled from the spec: implicit promotion of a native integer or float
to a fixed-point value with inferred format, using the other operand's
policy.  A fixed-point operand is left unchanged. -/
def promote : Operand → Policy → FixedPoint
  | .fp x, _ => x
  | .int i, pol =>
      let q : ℚ := (i : ℚ)
      let nn := min_n q
      let mm := if min_m q = 0 ∧ nn = 0 then 1 else min_m q
      ⟨decide (q < 0), mm, nn, encode (mm + nn) ⌊q * 2 ^ nn⌋, pol⟩
  | .float q, pol =>
      let nn := min_n q
      let mm := if min_m q = 0 ∧ nn = 0 then 1 else min_m q
      ⟨decide (q < 0), mm, nn, encode (mm + nn) ⌊q * 2 ^ nn⌋, pol⟩

/-- Floor division with a native right-hand operand (implicit cast). -/
def floordivN (a : FixedPoint) (v : Operand) : Except FpError FixedPoint :=
  floordiv a (promote v a.policy)

/-- Reflected floor division: a native left-hand operand and a fixed-point
divisor. -/
def rfloordivN (v : Operand) (b : FixedPoint) : Except FpError FixedPoint :=
  floordiv (promote v b.policy) b

/-- Modulo with a native right-hand operand (implicit cast). -/
def fmodN (a : FixedPoint) (v : Operand) : Except FpError FixedPoint :=
  fmod a (promote v a.policy)

/-- Reflected modulo: a native left-hand operand and a fixed-point
divisor. -/
def rmodN (v : Operand) (b : FixedPoint) : Except FpError FixedPoint :=
  fmod (promote v b.policy) b

theorem encode_lt (w : ℕ) (v : ℤ) : encode w v < 2 ^ w := by
  have hpos : (0 : ℤ) < 2 ^ w := by positivity
  have h := Int.emod_lt_of_pos v (b := (2 : ℤ) ^ w) hpos
  have h0 := Int.emod_nonneg v (ne_of_gt hpos)
  have hc : (((2 : ℕ) ^ w : ℕ) : ℤ) = (2 : ℤ) ^ w := by push_cast; ring
  unfold encode
  omega

theorem encode_cast (w : ℕ) (v : ℤ) : ((encode w v : ℕ) : ℤ) = v % (2 : ℤ) ^ w := by
  have hpos : (0 : ℤ) < 2 ^ w := by positivity
  have h0 := Int.emod_nonneg v (ne_of_gt hpos)
  unfold encode
  omega

/-- Decoding an encoded integer recovers it, provided it lies in the
representable range of the format. -/
theorem sval_mk (s : Bool) (m n : ℕ) (pol : Policy) (v : ℤ) (hw : 1 ≤ m + n)
    (hlo : if s = true then -((2 : ℤ) ^ (m + n - 1)) ≤ v else 0 ≤ v)
    (hhi : if s = true then v < 2 ^ (m + n - 1) else v < 2 ^ (m + n)) :
    sval ⟨s, m, n, encode (m + n) v, pol⟩ = v := by
  have hpos : (0 : ℤ) < 2 ^ (m + n) := by positivity
  have hcast := encode_cast (m + n) v
  have hsplit : (2 : ℤ) ^ (m + n) = 2 ^ (m + n - 1) * 2 := by
    rw [← pow_succ]
    congr 1
    omega
  have hc1 : (((2 : ℕ) ^ (m + n - 1) : ℕ) : ℤ) = (2 : ℤ) ^ (m + n - 1) := by push_cast; ring
  unfold sval width
  simp only
  cases s with
  | false =>
    simp only [Bool.false_eq_true, false_and, if_false] at *
    have : v % (2 : ℤ) ^ (m + n) = v := Int.emod_eq_of_lt hlo hhi
    omega
  | true =>
    simp only [if_true, true_and] at *
    by_cases hv : 0 ≤ v
    · have hv2 : v < 2 ^ (m + n) := by omega
      have hmod : v % (2 : ℤ) ^ (m + n) = v := Int.emod_eq_of_lt hv hv2
      have hblt : ¬ 2 ^ (m + n - 1) ≤ encode (m + n) v := by
        intro hcond
        have : (((2 : ℕ) ^ (m + n - 1) : ℕ) : ℤ) ≤ (encode (m + n) v : ℤ) :=
          Nat.cast_le.mpr hcond
        omega
      rw [if_neg hblt]
      omega
    · push_neg at hv
      have hmod : v % (2 : ℤ) ^ (m + n) = v + 2 ^ (m + n) := by
        have h1 : (v + 2 ^ (m + n) * 1) % (2 : ℤ) ^ (m + n) = v % 2 ^ (m + n) :=
          Int.add_mul_emod_self_left v ((2 : ℤ) ^ (m + n)) 1
        have h2 : (v + 2 ^ (m + n)) % (2 : ℤ) ^ (m + n) = v + 2 ^ (m + n) := by
          apply Int.emod_eq_of_lt <;> omega
        rw [mul_one] at h1
        omega
      have hcond : 2 ^ (m + n - 1) ≤ encode (m + n) v := by
        have : (((2 : ℕ) ^ (m + n - 1) : ℕ) : ℤ) ≤ (encode (m + n) v : ℤ) := by omega
        exact_mod_cast this
      rw [if_pos hcond]
      omega

/-- Range of the signed integer of a well-formed value. -/
theorem sval_range (x : FixedPoint) (h : wf x) :
    (if x.signed = true then -((2 : ℤ) ^ (width x - 1)) ≤ sval x ∧ sval x < 2 ^ (width x - 1)
     else 0 ≤ sval x ∧ sval x < 2 ^ width x) := by
  obtain ⟨hb, hw, hs⟩ := h
  have hsplit : (2 : ℤ) ^ width x = 2 ^ (width x - 1) * 2 := by
    rw [← pow_succ]
    congr 1
    omega
  have hbz : (x.bits : ℤ) < 2 ^ width x := by exact_mod_cast hb
  unfold sval
  cases hxs : x.signed with
  | false =>
    simp only [Bool.false_eq_true, false_and, if_false]
    constructor
    · positivity
    · exact hbz
  | true =>
    simp only [if_true, true_and]
    by_cases hc : 2 ^ (width x - 1) ≤ x.bits
    · rw [if_pos hc]
      have : ((2 : ℕ) ^ (width x - 1) : ℤ) ≤ (x.bits : ℤ) := by exact_mod_cast hc
      have hcz : ((2 : ℕ) ^ (width x - 1) : ℤ) = (2 : ℤ) ^ (width x - 1) := by push_cast; ring
      omega
    · rw [if_neg hc]
      push_neg at hc
      have : (x.bits : ℤ) < (2 : ℕ) ^ (width x - 1) := by exact_mod_cast hc
      have hcz : ((2 : ℕ) ^ (width x - 1) : ℤ) = (2 : ℤ) ^ (width x - 1) := by push_cast; ring
      omega

/-- The signed integer of a well-formed value is bounded by the width. -/
theorem abs_sval_lt (x : FixedPoint) (h : wf x) : |sval x| < 2 ^ width x := by
  have hr := sval_range x h
  have hw : 1 ≤ width x := h.2.1
  have hlt : (2 : ℤ) ^ (width x - 1) < 2 ^ width x := by
    apply pow_lt_pow_right₀ (by norm_num)
    omega
  cases hxs : x.signed with
  | false =>
    rw [hxs] at hr
    simp only [Bool.false_eq_true, if_false] at hr
    rw [abs_lt]
    omega
  | true =>
    rw [hxs] at hr
    simp only [if_true] at hr
    rw [abs_lt]
    omega

/-- The signed integer is zero exactly when the bit store is zero. -/
theorem sval_eq_zero_iff (x : FixedPoint) (h : wf x) : sval x = 0 ↔ x.bits = 0 := by
  obtain ⟨hb, hw, hs⟩ := h
  have hbz : (x.bits : ℤ) < 2 ^ width x := by exact_mod_cast hb
  unfold sval
  by_cases hc : x.signed = true ∧ 2 ^ (width x - 1) ≤ x.bits
  · rw [if_pos hc]
    have h1 : 1 ≤ 2 ^ (width x - 1) := Nat.one_le_two_pow
    obtain ⟨_, hc2⟩ := hc
    constructor
    · intro hz
      omega
    · intro hz
      omega
  · rw [if_neg hc]
    omega

/-- The represented value of a well-formed value is bounded by `2^m` in
magnitude. -/
theorem abs_val_lt (x : FixedPoint) (h : wf x) : |val x| < 2 ^ x.m := by
  have h1 : |sval x| < 2 ^ width x := abs_sval_lt x h
  have h1q : |((sval x : ℤ) : ℚ)| < 2 ^ width x := by
    rw [← Int.cast_abs]
    exact_mod_cast h1
  have hp : (0 : ℚ) < 2 ^ x.n := by positivity
  unfold val
  rw [abs_div, abs_of_pos hp, div_lt_iff₀ hp]
  calc |((sval x : ℤ) : ℚ)| < 2 ^ width x := h1q
    _ = 2 ^ x.m * 2 ^ x.n := by rw [← pow_add]; rfl

/-- A well-formed value with a nonzero bit store has magnitude at least one
least significant bit, `2^(-n)`. -/
theorem inv_le_abs_val (x : FixedPoint) (h : wf x) (hz : x.bits ≠ 0) :
    ((2 : ℚ) ^ x.n)⁻¹ ≤ |val x| := by
  have hs0 : sval x ≠ 0 := fun hh => hz ((sval_eq_zero_iff x h).1 hh)
  have h1 : (1 : ℤ) ≤ |sval x| := Int.one_le_abs hs0
  have h1q : (1 : ℚ) ≤ |((sval x : ℤ) : ℚ)| := by
    rw [← Int.cast_abs]
    exact_mod_cast h1
  have hp : (0 : ℚ) < 2 ^ x.n := by positivity
  unfold val
  rw [abs_div, abs_of_pos hp, le_div_iff₀ hp, inv_mul_cancel₀ (ne_of_gt hp)]
  exact h1q

/-- The represented value is negative exactly when the signed integer is. -/
theorem val_neg_iff (x : FixedPoint) : val x < 0 ↔ sval x < 0 := by
  have hp : (0 : ℚ) < 2 ^ x.n := by positivity
  unfold val
  rw [div_neg_iff]
  constructor
  · rintro (⟨_, h2⟩ | ⟨h1, _⟩)
    · exact absurd h2 (not_lt.mpr hp.le)
    · exact_mod_cast h1
  · intro h1
    exact Or.inr ⟨by exact_mod_cast h1, hp⟩

/-- The represented value is nonnegative exactly when the signed integer
is. -/
theorem val_nonneg_iff (x : FixedPoint) : 0 ≤ val x ↔ 0 ≤ sval x := by
  rw [← not_lt, ← not_lt, not_iff_not]
  exact val_neg_iff x

/-- The represented value is zero exactly when the bit store is zero. -/
theorem val_eq_zero_iff (x : FixedPoint) (h : wf x) : val x = 0 ↔ x.bits = 0 := by
  have hp : (2 : ℚ) ^ x.n ≠ 0 := by positivity
  unfold val
  rw [div_eq_zero_iff]
  simp only [hp, or_false, Int.cast_eq_zero]
  exact sval_eq_zero_iff x h

/-- Rescaling a quantity from `n` fraction bits to `N ≥ n` fraction bits. -/
theorem qscale (s : ℚ) (n N : ℕ) (h : n ≤ N) : s * 2 ^ (N - n) = s / 2 ^ n * 2 ^ N := by
  obtain ⟨k, rfl⟩ : ∃ k, N = n + k := ⟨N - n, by omega⟩
  rw [Nat.add_sub_cancel_left, pow_add]
  field_simp
  ring

/-- The scaled difference is the exact difference of the represented values,
scaled by the result's fraction-bit count. -/
theorem diffScaled_eq (a b : FixedPoint) :
    ((diffScaled a b : ℤ) : ℚ) = (val a - val b) * 2 ^ subN a b := by
  have ha : a.n ≤ subN a b := le_max_left _ _
  have hb : b.n ≤ subN a b := le_max_right _ _
  unfold diffScaled
  push_cast
  rw [qscale ((sval a : ℤ) : ℚ) a.n (subN a b) ha,
      qscale ((sval b : ℤ) : ℚ) b.n (subN a b) hb, sub_mul]
  rfl

/-- The scaled difference is negative exactly when the exact difference of
the represented values is. -/
theorem diffScaled_neg_iff (a b : FixedPoint) :
    diffScaled a b < 0 ↔ val a - val b < 0 := by
  have hp : (0 : ℚ) < 2 ^ subN a b := by positivity
  constructor
  · intro h
    have hq : ((diffScaled a b : ℤ) : ℚ) < 0 := by exact_mod_cast h
    rw [diffScaled_eq] at hq
    by_contra hc
    push_neg at hc
    exact absurd hq (not_lt.mpr (mul_nonneg hc hp.le))
  · intro h
    have hq : (val a - val b) * 2 ^ subN a b < 0 := mul_neg_of_neg_of_pos h hp
    rw [← diffScaled_eq] at hq
    exact_mod_cast hq

/-- C3: Subtraction of two unsigned fixed-point operands whose mathematical
difference is negative is an overflow: under `overflow_alert = error` the
operation aborts with `Overflow`; under `warning` with `overflow = clamp` it
completes with exactly one warning record and returns value 0 marked as
clamped; under `overflow = wrap` (alert not `error`) it returns the
two's-complement bit pattern of the difference at the current unsigned
result width. -/
theorem unsigned_sub_overflow (a b : FixedPoint)
    (hsa : a.signed = false) (hsb : b.signed = false) (hpol : a.policy = b.policy)
    (hneg : val a - val b < 0) :
    (a.policy.overflow_alert = .error → fpsub a b = .error .Overflow) ∧
    (a.policy.overflow_alert = .warning → a.policy.overflow = .clamp →
      ∃ r, fpsub a b = .ok (r, [.overflowWarning]) ∧ val r = 0 ∧ clamped r = true ∧
        r.signed = false ∧ r.m = subM a b ∧ r.n = subN a b) ∧
    (a.policy.overflow = .wrap → a.policy.overflow_alert ≠ .error →
      ∃ r recs, fpsub a b = .ok (r, recs) ∧
        (r.bits : ℤ) = diffScaled a b % 2 ^ (subM a b + subN a b) ∧
        r.signed = false ∧ r.m = subM a b ∧ r.n = subN a b) := by
  have hd : diffScaled a b < 0 := (diffScaled_neg_iff a b).mpr hneg
  have hs : (a.signed || b.signed) = false := by rw [hsa, hsb]; rfl
  have hnomis : ¬(a.policy ≠ b.policy ∧ a.policy.mismatch_alert = .error) := by
    intro hc
    exact hc.1 hpol
  have hrecs : mismatchRecs a b = [] := by
    unfold mismatchRecs
    rw [if_pos hpol]
  have hd0 : ¬ (0 : ℤ) ≤ diffScaled a b := not_le.mpr hd
  have hrange : inRangeB false (subM a b + subN a b) (diffScaled a b) = false := by
    simp [inRangeB, hd0]
  have hres : resolveOverflow false (subM a b + subN a b) .clamp (diffScaled a b) = 0 := by
    unfold resolveOverflow
    simp only [Bool.false_eq_true, if_false]
    rw [if_pos hd]
  unfold fpsub
  rw [if_neg hnomis]
  simp only [hs, hrecs]
  rw [if_neg (by rw [hrange]; exact Bool.false_ne_true)]
  refine ⟨?_, ?_, ?_⟩
  · intro herr
    rw [herr]
  · intro hwarn hclamp
    rw [hwarn, hclamp]
    refine ⟨⟨false, subM a b, subN a b, resolveOverflow false (subM a b + subN a b) .clamp
      (diffScaled a b), a.policy⟩, rfl, ?_, ?_, rfl, rfl, rfl⟩
    · rw [hres]
      unfold val sval
      simp
    · rw [hres]
      unfold clamped minBits
      simp
  · intro hwrap hnerr
    cases hal : a.policy.overflow_alert with
    | error => exact absurd hal hnerr
    | warning =>
        rw [hwrap]
        refine ⟨_, _, rfl, ?_, rfl, rfl, rfl⟩
        unfold resolveOverflow
        exact encode_cast _ _
    | ignore =>
        rw [hwrap]
        refine ⟨_, _, rfl, ?_, rfl, rfl, rfl⟩
        unfold resolveOverflow
        exact encode_cast _ _

theorem encode_of_lt (w : ℕ) (v : ℤ) (h0 : 0 ≤ v) (hlt : v < 2 ^ w) :
    ((encode w v : ℕ) : ℤ) = v := by
  rw [encode_cast]
  exact Int.emod_eq_of_lt h0 hlt

/-- A signed value's bit store is the minimum pattern (sign bit set,
remaining bits zero) exactly when its signed integer is `-2^(w-1)`. -/
theorem bits_min_iff (x : FixedPoint) (h : wf x) (hs : x.signed = true) :
    x.bits = 2 ^ (width x - 1) ↔ sval x = -((2 : ℤ) ^ (width x - 1)) := by
  obtain ⟨hb, hw, _⟩ := h
  have hsplit : (2 : ℤ) ^ width x = 2 ^ (width x - 1) * 2 := by
    rw [← pow_succ]
    congr 1
    omega
  have hbz : (x.bits : ℤ) < 2 ^ width x := by exact_mod_cast hb
  have hcz : (((2 : ℕ) ^ (width x - 1) : ℕ) : ℤ) = (2 : ℤ) ^ (width x - 1) := by
    push_cast; ring
  have hppos : (0 : ℤ) < 2 ^ (width x - 1) := by positivity
  unfold sval
  by_cases hc : 2 ^ (width x - 1) ≤ x.bits
  · rw [if_pos ⟨hs, hc⟩]
    constructor
    · intro he
      have : (x.bits : ℤ) = ((2 : ℕ) ^ (width x - 1) : ℕ) := by exact_mod_cast he
      omega
    · intro he
      have : (x.bits : ℤ) = ((2 : ℕ) ^ (width x - 1) : ℕ) := by omega
      exact_mod_cast this
  · rw [if_neg (fun hcc => hc hcc.2)]
    push_neg at hc
    have hcb : (x.bits : ℤ) < ((2 : ℕ) ^ (width x - 1) : ℕ) := by exact_mod_cast hc
    constructor
    · intro he
      exact absurd (he ▸ hc) (lt_irrefl _)
    · intro he
      omega

/-- Negating a signed, well-formed value that is not the minimum pattern
succeeds with format preserved, no records, and the exact negated value;
moreover the result is well formed and again not the minimum pattern. -/
theorem fpneg_nonmin (y : FixedPoint) (hy : wf y) (hs : y.signed = true)
    (hne : y.bits ≠ 2 ^ (width y - 1)) :
    ∃ z, fpneg y = .ok (z, []) ∧ z.m = y.m ∧ z.n = y.n ∧ z.signed = true ∧
      z.policy = y.policy ∧ wf z ∧ z.bits ≠ 2 ^ (width z - 1) ∧ val z = -(val y) := by
  have hr := sval_range y hy
  simp only [hs, if_true] at hr
  rw [show width y = y.m + y.n from rfl] at hr
  have hw1 : 1 ≤ width y := hy.2.1
  have hm1 : 1 ≤ y.m := hy.2.2 hs
  have hsvne : sval y ≠ -((2 : ℤ) ^ (width y - 1)) :=
    fun hh => hne ((bits_min_iff y hy hs).2 hh)
  rw [show width y = y.m + y.n from rfl] at hsvne
  have hsvz : sval ⟨y.signed, y.m, y.n, encode (width y) (-sval y), y.policy⟩ = -sval y := by
    simp only [hs]
    exact sval_mk true y.m y.n y.policy (-sval y) hw1
      (by simp only [if_pos rfl]; show -((2 : ℤ) ^ (y.m + y.n - 1)) ≤ -sval y; omega)
      (by simp only [if_pos rfl]; show -sval y < (2 : ℤ) ^ (y.m + y.n - 1); omega)
  have hzwf : wf ⟨y.signed, y.m, y.n, encode (width y) (-sval y), y.policy⟩ :=
    ⟨encode_lt (width y) (-sval y), hw1, fun _ => hm1⟩
  refine ⟨⟨y.signed, y.m, y.n, encode (width y) (-sval y), y.policy⟩, ?_, rfl, rfl, hs, rfl,
    hzwf, ?_, ?_⟩
  · unfold fpneg
    rw [if_neg (by simp [hs]), if_neg hne]
  · intro hzmin
    have hz := (bits_min_iff _ hzwf (by exact hs)).1 hzmin
    rw [hsvz] at hz
    rw [show width (⟨y.signed, y.m, y.n, encode (width y) (-sval y), y.policy⟩ :
      FixedPoint) = y.m + y.n from rfl] at hz
    omega
  · unfold val
    rw [hsvz]
    push_cast
    rw [neg_div]

/-- Negating a signed, well-formed value that is the minimum pattern yields
(at the grown format `m+1`) a well-formed result carrying the exact negated
value, and that result is not the minimum pattern of its own format. -/
theorem fpneg_min_result (y : FixedPoint) (hy : wf y) (hs : y.signed = true)
    (hmin : y.bits = 2 ^ (width y - 1)) :
    wf ⟨y.signed, y.m + 1, y.n, encode (y.m + 1 + y.n) (-sval y), y.policy⟩ ∧
    (⟨y.signed, y.m + 1, y.n, encode (y.m + 1 + y.n) (-sval y), y.policy⟩ :
      FixedPoint).bits ≠
      2 ^ (width ⟨y.signed, y.m + 1, y.n, encode (y.m + 1 + y.n) (-sval y), y.policy⟩ - 1) ∧
    val ⟨y.signed, y.m + 1, y.n, encode (y.m + 1 + y.n) (-sval y), y.policy⟩ = -(val y) := by
  have hw1 : 1 ≤ width y := hy.2.1
  have hsv : sval y = -((2 : ℤ) ^ (width y - 1)) := (bits_min_iff y hy hs).1 hmin
  have hpow : (2 : ℤ) ^ (width y - 1) < 2 ^ (y.m + 1 + y.n - 1) := by
    apply pow_lt_pow_right₀ (by norm_num)
    have : width y = y.m + y.n := rfl
    omega
  have hppos : (0 : ℤ) < 2 ^ (width y - 1) := by positivity
  have hsvz : sval ⟨y.signed, y.m + 1, y.n, encode (y.m + 1 + y.n) (-sval y), y.policy⟩ =
      -sval y := by
    simp only [hs]
    exact sval_mk true (y.m + 1) y.n y.policy (-sval y) (by omega)
      (by simp only [if_pos rfl]
          show -((2 : ℤ) ^ (y.m + 1 + y.n - 1)) ≤ -sval y
          omega)
      (by simp only [if_pos rfl]
          show -sval y < (2 : ℤ) ^ (y.m + 1 + y.n - 1)
          omega)
  have hzwf : wf ⟨y.signed, y.m + 1, y.n, encode (y.m + 1 + y.n) (-sval y), y.policy⟩ :=
    ⟨encode_lt (y.m + 1 + y.n) (-sval y), by show 1 ≤ y.m + 1 + y.n; omega,
      fun _ => by show 1 ≤ y.m + 1; omega⟩
  refine ⟨hzwf, ?_, ?_⟩
  · intro hzmin
    have hz := (bits_min_iff _ hzwf (by exact hs)).1 hzmin
    rw [hsvz] at hz
    rw [show width (⟨y.signed, y.m + 1, y.n, encode (y.m + 1 + y.n) (-sval y), y.policy⟩ :
      FixedPoint) = y.m + 1 + y.n from rfl] at hz
    have h2 : (0 : ℤ) < 2 ^ (y.m + 1 + y.n - 1) := by positivity
    omega
  · unfold val
    rw [hsvz]
    push_cast
    rw [neg_div]

/-- C4: Unary negation of an unsigned value is fatal; on a signed value it
preserves `n`, and preserves `m` unless the operand is the minimum
representable value, in which case the `error` alert raises immediately
while `warning` and `ignore` grow `m` by one and produce the mathematically
correct value, `warning` additionally emitting exactly two records: the
overflow, then the format adjustment. -/
theorem negation_spec (x : FixedPoint) (hx : wf x) :
    (x.signed = false → fpneg x = .error .NegationOfUnsigned) ∧
    (x.signed = true → x.bits ≠ 2 ^ (width x - 1) →
      ∃ r, fpneg x = .ok (r, []) ∧ r.m = x.m ∧ r.n = x.n ∧ r.signed = true ∧
        val r = -(val x)) ∧
    (x.signed = true → x.bits = 2 ^ (width x - 1) →
      (x.policy.overflow_alert = .error → fpneg x = .error .Overflow) ∧
      (x.policy.overflow_alert = .warning →
        ∃ r, fpneg x = .ok (r, [.overflowWarning, .formatAdjust (x.m + 1) x.n]) ∧
          r.m = x.m + 1 ∧ r.n = x.n ∧ r.signed = true ∧ val r = -(val x)) ∧
      (x.policy.overflow_alert = .ignore →
        ∃ r, fpneg x = .ok (r, []) ∧ r.m = x.m + 1 ∧ r.n = x.n ∧ r.signed = true ∧
          val r = -(val x))) := by
  refine ⟨?_, ?_, ?_⟩
  · intro hs
    unfold fpneg
    rw [if_pos hs]
  · intro hs hne
    obtain ⟨z, hz1, hz2, hz3, hz4, _, _, _, hz8⟩ := fpneg_nonmin x hx hs hne
    exact ⟨z, hz1, hz2, hz3, hz4, hz8⟩
  · intro hs hmin
    obtain ⟨hzwf, hzmin, hzval⟩ := fpneg_min_result x hx hs hmin
    have hneq : ¬ x.signed = false := by simp [hs]
    refine ⟨?_, ?_, ?_⟩
    · intro herr
      unfold fpneg
      rw [if_neg hneq, if_pos hmin, herr]
    · intro hwarn
      refine ⟨⟨x.signed, x.m + 1, x.n, encode (x.m + 1 + x.n) (-sval x), x.policy⟩,
        ?_, rfl, rfl, hs, hzval⟩
      unfold fpneg
      rw [if_neg hneq, if_pos hmin, hwarn]
    · intro hig
      refine ⟨⟨x.signed, x.m + 1, x.n, encode (x.m + 1 + x.n) (-sval x), x.policy⟩,
        ?_, rfl, rfl, hs, hzval⟩
      unfold fpneg
      rw [if_neg hneq, if_pos hmin, hig]

/-- Witness for C4 at the spec's concrete scenario: negating the signed
minimum `m=2, n=0, bits=10₂` (value −2) under `overflow_alert = warning`
grows `m` to 3, logs the overflow record then the format-adjustment record,
and yields the mathematically correct value 2. -/
theorem negation_spec_witness :
    ∃ r, fpneg ⟨true, 2, 0, 2, ⟨.nearest, .clamp, .warning, .warning, .warning, 16⟩⟩ =
        .ok (r, [.overflowWarning, .formatAdjust 3 0]) ∧
      r.m = 3 ∧ r.n = 0 ∧ r.signed = true ∧
      val r = -(val ⟨true, 2, 0, 2, ⟨.nearest, .clamp, .warning, .warning, .warning, 16⟩⟩) :=
  ((negation_spec ⟨true, 2, 0, 2, ⟨.nearest, .clamp, .warning, .warning, .warning, 16⟩⟩
    ⟨by decide, by decide, fun _ => by decide⟩).2.2 rfl (by decide)).2.1 rfl

/-- C10: Negation is an involution on represented values: for every signed
well-formed value whose negation does not raise, the double negation
compares equal to the original (equal represented values), and the first
negation is signed with `n` preserved. -/
theorem neg_involution (x : FixedPoint) (hx : wf x) (hs : x.signed = true)
    (r : FixedPoint) (recs : List LogRec) (h : fpneg x = .ok (r, recs)) :
    r.signed = true ∧ r.n = x.n ∧
    ∃ z zrecs, fpneg r = .ok (z, zrecs) ∧ val z = val x := by
  have hneq : ¬ x.signed = false := by simp [hs]
  by_cases hmin : x.bits = 2 ^ (width x - 1)
  · obtain ⟨hzwf, hzmin, hzval⟩ := fpneg_min_result x hx hs hmin
    cases hal : x.policy.overflow_alert with
    | error =>
        have heq : fpneg x = .error .Overflow := by
          unfold fpneg
          rw [if_neg hneq, if_pos hmin, hal]
        rw [heq] at h
        exact absurd h (by simp)
    | warning =>
        have heq : fpneg x =
            .ok (⟨x.signed, x.m + 1, x.n, encode (x.m + 1 + x.n) (-sval x), x.policy⟩,
                 [.overflowWarning, .formatAdjust (x.m + 1) x.n]) := by
          unfold fpneg
          rw [if_neg hneq, if_pos hmin, hal]
        rw [heq] at h
        simp only [Except.ok.injEq, Prod.mk.injEq] at h
        obtain ⟨h1, _⟩ := h
        subst h1
        refine ⟨hs, rfl, ?_⟩
        obtain ⟨z, hz1, _, _, _, _, _, _, hz8⟩ := fpneg_nonmin _ hzwf (by exact hs) hzmin
        exact ⟨z, [], hz1, by rw [hz8, hzval, neg_neg]⟩
    | ignore =>
        have heq : fpneg x =
            .ok (⟨x.signed, x.m + 1, x.n, encode (x.m + 1 + x.n) (-sval x), x.policy⟩, []) := by
          unfold fpneg
          rw [if_neg hneq, if_pos hmin, hal]
        rw [heq] at h
        simp only [Except.ok.injEq, Prod.mk.injEq] at h
        obtain ⟨h1, _⟩ := h
        subst h1
        refine ⟨hs, rfl, ?_⟩
        obtain ⟨z, hz1, _, _, _, _, _, _, hz8⟩ := fpneg_nonmin _ hzwf (by exact hs) hzmin
        exact ⟨z, [], hz1, by rw [hz8, hzval, neg_neg]⟩
  · obtain ⟨z, hz1, hz2, hz3, hz4, hz5, hz6, hz7, hz8⟩ := fpneg_nonmin x hx hs hmin
    rw [hz1] at h
    simp only [Except.ok.injEq, Prod.mk.injEq] at h
    obtain ⟨h1, _⟩ := h
    subst h1
    refine ⟨hz4, hz3, ?_⟩
    obtain ⟨z2, hz21, _, _, _, _, _, _, hz28⟩ := fpneg_nonmin z hz6 hz4 hz7
    exact ⟨z2, [], hz21, by rw [hz28, hz8, neg_neg]⟩

/-- Witness for C10 at a concrete input: negating signed `Q2.0` value 1
yields bit pattern 11₂, and negating again recovers the value 1. -/
theorem neg_involution_witness :
    (⟨true, 2, 0, 3, defaultPolicy⟩ : FixedPoint).signed = true ∧
    (⟨true, 2, 0, 3, defaultPolicy⟩ : FixedPoint).n =
      (⟨true, 2, 0, 1, defaultPolicy⟩ : FixedPoint).n ∧
    ∃ z zrecs, fpneg ⟨true, 2, 0, 3, defaultPolicy⟩ = .ok (z, zrecs) ∧
      val z = val ⟨true, 2, 0, 1, defaultPolicy⟩ :=
  neg_involution ⟨true, 2, 0, 1, defaultPolicy⟩ ⟨by decide, by decide, fun _ => by decide⟩ rfl
    ⟨true, 2, 0, 3, defaultPolicy⟩ [] (by rfl)

/-- The signed integer reduces to the raw bit store modulo the width. -/
theorem sval_emod (x : FixedPoint) (h : wf x) :
    sval x % (2 : ℤ) ^ width x = (x.bits : ℤ) := by
  have hb : (x.bits : ℤ) < 2 ^ width x := by exact_mod_cast h.1
  have hb0 : (0 : ℤ) ≤ x.bits := Int.natCast_nonneg _
  have h2 : (x.bits : ℤ) % 2 ^ width x = x.bits := Int.emod_eq_of_lt hb0 hb
  unfold sval
  split
  · rw [Int.emod_sub_cancel]
    exact h2
  · exact h2

/-- Left shift by `s` agrees with right shift by `-s`. -/
theorem fshl_eq_fshr_neg (x : FixedPoint) (hx : wf x) (s : ℤ) :
    fshl x s = fshr x (-s) := by
  unfold fshl fshr
  by_cases h0 : 0 ≤ s
  · rw [if_pos h0]
    by_cases hz : s = 0
    · subst hz
      rw [if_pos (by omega : (0 : ℤ) ≤ -0)]
      simp only [FixedPoint.mk.injEq, true_and, and_true]
      have hlt : x.bits % 2 ^ width x = x.bits := Nat.mod_eq_of_lt hx.1
      have hsv := sval_emod x hx
      have : ((-(0 : ℤ)).toNat) = 0 := rfl
      rw [this]
      simp only [Int.toNat_zero, Nat.shiftLeft_zero, pow_zero, Int.ediv_one, hlt]
      omega
    · rw [if_neg (by omega : ¬ (0 : ℤ) ≤ -s)]
      simp only [neg_neg]
  · rw [if_neg h0, if_pos (by omega : (0 : ℤ) ≤ -s)]

/-- C6: For every fixed-point value and every native integer shift amount,
`x << s` equals `x >> -s` and `x >> s` equals `x << -s`; the format (width
and signedness) is unchanged; a non-negative right shift is arithmetic on
the signed integer (sign-extending) re-masked to the current width, and a
non-negative left shift is logical, truncated to the current width. -/
theorem shift_spec (x : FixedPoint) (hx : wf x) (s : ℤ) :
    fshl x s = fshr x (-s) ∧ fshr x s = fshl x (-s) ∧
    (fshl x s).signed = x.signed ∧ (fshl x s).m = x.m ∧ (fshl x s).n = x.n ∧
    (fshr x s).signed = x.signed ∧ (fshr x s).m = x.m ∧ (fshr x s).n = x.n ∧
    (0 ≤ s → ((fshr x s).bits : ℤ) = (sval x / 2 ^ s.toNat) % (2 : ℤ) ^ width x ∧
      (fshl x s).bits = (x.bits <<< s.toNat) % 2 ^ width x) := by
  refine ⟨fshl_eq_fshr_neg x hx s, ?_, ?_, ?_, ?_, ?_, ?_, ?_, ?_⟩
  · have h := fshl_eq_fshr_neg x hx (-s)
    rw [neg_neg] at h
    exact h.symm
  · unfold fshl; split <;> rfl
  · unfold fshl; split <;> rfl
  · unfold fshl; split <;> rfl
  · unfold fshr; split <;> rfl
  · unfold fshr; split <;> rfl
  · unfold fshr; split <;> rfl
  · intro h0
    constructor
    · unfold fshr
      rw [if_pos h0]
      exact encode_cast _ _
    · unfold fshl
      rw [if_pos h0]

/-- Witness for C6 at a concrete input: signed `Q2.1` with bit pattern 101₂
(sign bit set), shifted by 1. -/
theorem shift_spec_witness :
    (fshl ⟨true, 2, 1, 5, defaultPolicy⟩ 1 = fshr ⟨true, 2, 1, 5, defaultPolicy⟩ (-1) ∧
      fshr ⟨true, 2, 1, 5, defaultPolicy⟩ 1 = fshl ⟨true, 2, 1, 5, defaultPolicy⟩ (-1) ∧
      (fshl ⟨true, 2, 1, 5, defaultPolicy⟩ 1).signed = true ∧
      (fshl ⟨true, 2, 1, 5, defaultPolicy⟩ 1).m = 2 ∧
      (fshl ⟨true, 2, 1, 5, defaultPolicy⟩ 1).n = 1 ∧
      (fshr ⟨true, 2, 1, 5, defaultPolicy⟩ 1).signed = true ∧
      (fshr ⟨true, 2, 1, 5, defaultPolicy⟩ 1).m = 2 ∧
      (fshr ⟨true, 2, 1, 5, defaultPolicy⟩ 1).n = 1 ∧
      ((0 : ℤ) ≤ 1 →
        ((fshr ⟨true, 2, 1, 5, defaultPolicy⟩ 1).bits : ℤ) =
          (sval ⟨true, 2, 1, 5, defaultPolicy⟩ / 2 ^ (1 : ℤ).toNat) %
            (2 : ℤ) ^ width ⟨true, 2, 1, 5, defaultPolicy⟩ ∧
        (fshl ⟨true, 2, 1, 5, defaultPolicy⟩ 1).bits =
          (5 <<< (1 : ℤ).toNat) % 2 ^ width ⟨true, 2, 1, 5, defaultPolicy⟩)) :=
  shift_spec ⟨true, 2, 1, 5, defaultPolicy⟩ ⟨by decide, by decide, fun _ => by decide⟩ 1

/-- C8: The operators with no native definition consult the callback
registry: with no callback registered (equivalently, after registering
`None`) the operation is fatal `UnsupportedOperator` naming the exact
operator spelling and both operand type names, for every pair of operand
kinds (both orders, int and float included); with a two-argument callback
registered, the operation invokes it on `(left, right)` and returns its
result verbatim. -/
theorem callback_spec (op : String) (a b : Operand) :
    callbackOp none op a b = .error (.UnsupportedOperator op a.typeName b.typeName) ∧
    ∀ f : Callback, callbackOp (some f) op a b = .ok (f a b) :=
  ⟨rfl, fun _ => rfl⟩

theorem int_land_comm (a b : ℤ) : Int.land a b = Int.land b a := by
  cases a <;> cases b <;> simp [Int.land, Nat.land_comm, Nat.lor_comm]

theorem int_lor_comm (a b : ℤ) : Int.lor a b = Int.lor b a := by
  cases a <;> cases b <;> simp [Int.lor, Nat.lor_comm, Nat.land_comm]

theorem int_xor_comm (a b : ℤ) : Int.xor a b = Int.xor b a := by
  cases a <;> cases b <;> simp [Int.xor, Nat.xor_comm]

/-- C9: The bitwise operators also accept a native integer on the left with
a fixed-point value on the right: the reflected forms agree with the
corresponding right-hand-native forms, preserve the fixed-point operand's
own format and policy, and produce the bitwise combination of the native
integer with the operand's bits, masked to the operand's own width (for a
natural-number left operand this is exactly the natural-number bitwise
combination reduced modulo the width). -/
theorem reflected_bitwise_spec (i : ℤ) (x : FixedPoint) :
    randInt i x = fandInt x i ∧ rorInt i x = forInt x i ∧ rxorInt i x = fxorInt x i ∧
    (randInt i x).signed = x.signed ∧ (randInt i x).m = x.m ∧ (randInt i x).n = x.n ∧
    (randInt i x).policy = x.policy ∧
    (rorInt i x).signed = x.signed ∧ (rorInt i x).m = x.m ∧ (rorInt i x).n = x.n ∧
    (rorInt i x).policy = x.policy ∧
    (rxorInt i x).signed = x.signed ∧ (rxorInt i x).m = x.m ∧ (rxorInt i x).n = x.n ∧
    (rxorInt i x).policy = x.policy ∧
    ((randInt i x).bits : ℤ) = Int.land i x.bits % (2 : ℤ) ^ width x ∧
    ((rorInt i x).bits : ℤ) = Int.lor i x.bits % (2 : ℤ) ^ width x ∧
    ((rxorInt i x).bits : ℤ) = Int.xor i x.bits % (2 : ℤ) ^ width x ∧
    (∀ j : ℕ, (randInt (j : ℤ) x).bits = (j &&& x.bits) % 2 ^ width x) ∧
    (∀ j : ℕ, (rorInt (j : ℤ) x).bits = (j ||| x.bits) % 2 ^ width x) ∧
    (∀ j : ℕ, (rxorInt (j : ℤ) x).bits = (j ^^^ x.bits) % 2 ^ width x) := by
  have hc : ((2 : ℤ) ^ width x) = (((2 : ℕ) ^ width x : ℕ) : ℤ) := by push_cast; ring
  refine ⟨?_, ?_, ?_, rfl, rfl, rfl, rfl, rfl, rfl, rfl, rfl, rfl, rfl, rfl, rfl,
    encode_cast (width x) _, encode_cast (width x) _, encode_cast (width x) _, ?_, ?_, ?_⟩
  · unfold randInt fandInt
    rw [int_land_comm]
  · unfold rorInt forInt
    rw [int_lor_comm]
  · unfold rxorInt fxorInt
    rw [int_xor_comm]
  · intro j
    show ((Int.land (j : ℤ) x.bits) % (2 : ℤ) ^ width x).toNat = (j &&& x.bits) % 2 ^ width x
    rw [show Int.land (j : ℤ) (x.bits : ℕ) = ((j &&& x.bits : ℕ) : ℤ) from rfl, hc,
      ← Int.ofNat_emod]
    exact Int.toNat_natCast _
  · intro j
    show ((Int.lor (j : ℤ) x.bits) % (2 : ℤ) ^ width x).toNat = (j ||| x.bits) % 2 ^ width x
    rw [show Int.lor (j : ℤ) (x.bits : ℕ) = ((j ||| x.bits : ℕ) : ℤ) from rfl, hc,
      ← Int.ofNat_emod]
    exact Int.toNat_natCast _
  · intro j
    show ((Int.xor (j : ℤ) x.bits) % (2 : ℤ) ^ width x).toNat = (j ^^^ x.bits) % 2 ^ width x
    rw [show Int.xor (j : ℤ) (x.bits : ℕ) = ((j ^^^ x.bits : ℕ) : ℤ) from rfl, hc,
      ← Int.ofNat_emod]
    exact Int.toNat_natCast _

/-- C7: Floor division and modulo by a divisor whose bit pattern is zero are
always fatal `DivideByZero`, in plain, reflected and (in the pure model
equivalently) in-place forms, whether the zero divisor is fixed-point, a
native int, or a native float, and never produce a result. -/
theorem div_by_zero_spec (a b : FixedPoint) (hbz : b.bits = 0) (i : ℤ) (hi : i = 0)
    (q : ℚ) (hq : q = 0) (v : Operand) :
    floordiv a b = .error .DivideByZero ∧ fmod a b = .error .DivideByZero ∧
    fdivmod a b = .error .DivideByZero ∧
    floordivN a (.int i) = .error .DivideByZero ∧
    floordivN a (.float q) = .error .DivideByZero ∧
    fmodN a (.int i) = .error .DivideByZero ∧
    fmodN a (.float q) = .error .DivideByZero ∧
    rfloordivN v b = .error .DivideByZero ∧ rmodN v b = .error .DivideByZero := by
  subst hi hq
  have hpi : (promote (Operand.int 0) a.policy).bits = 0 := by
    simp [promote, min_n, min_m, encode]
  have hpf : (promote (Operand.float 0) a.policy).bits = 0 := by
    simp [promote, min_n, min_m, encode]
  refine ⟨?_, ?_, ?_, ?_, ?_, ?_, ?_, ?_, ?_⟩
  · unfold floordiv
    rw [if_pos hbz]
  · unfold fmod
    rw [if_pos hbz]
  · unfold fdivmod
    rw [if_pos hbz]
  · unfold floordivN floordiv
    rw [if_pos hpi]
  · unfold floordivN floordiv
    rw [if_pos hpf]
  · unfold fmodN fmod
    rw [if_pos hpi]
  · unfold fmodN fmod
    rw [if_pos hpf]
  · unfold rfloordivN floordiv
    rw [if_pos hbz]
  · unfold rmodN fmod
    rw [if_pos hbz]

/-- Witness for C7 at concrete inputs: dividing unsigned `Q1.0` value 1 by a
zero-bit divisor (fixed-point, int 0, or float 0), in plain and reflected
forms, raises `DivideByZero`. -/
theorem div_by_zero_spec_witness :
    floordiv ⟨false, 1, 0, 1, defaultPolicy⟩ ⟨false, 1, 0, 0, defaultPolicy⟩ =
        .error .DivideByZero ∧
    fmod ⟨false, 1, 0, 1, defaultPolicy⟩ ⟨false, 1, 0, 0, defaultPolicy⟩ =
        .error .DivideByZero ∧
    fdivmod ⟨false, 1, 0, 1, defaultPolicy⟩ ⟨false, 1, 0, 0, defaultPolicy⟩ =
        .error .DivideByZero ∧
    floordivN ⟨false, 1, 0, 1, defaultPolicy⟩ (.int 0) = .error .DivideByZero ∧
    floordivN ⟨false, 1, 0, 1, defaultPolicy⟩ (.float 0) = .error .DivideByZero ∧
    fmodN ⟨false, 1, 0, 1, defaultPolicy⟩ (.int 0) = .error .DivideByZero ∧
    fmodN ⟨false, 1, 0, 1, defaultPolicy⟩ (.float 0) = .error .DivideByZero ∧
    rfloordivN (.int 7) ⟨false, 1, 0, 0, defaultPolicy⟩ = .error .DivideByZero ∧
    rmodN (.int 7) ⟨false, 1, 0, 0, defaultPolicy⟩ = .error .DivideByZero :=
  div_by_zero_spec ⟨false, 1, 0, 1, defaultPolicy⟩ ⟨false, 1, 0, 0, defaultPolicy⟩
    rfl 0 rfl 0 rfl (.int 7)

/-- C5: `divmod` produces exactly the pair of the floor-division result and
the modulo result, agreeing with the single operators on success values
(bits, format and policy included) and on every error path. -/
theorem divmod_spec (a b : FixedPoint) :
    fdivmod a b = do
      let d ← floordiv a b
      let r ← fmod a b
      return (d, r) := by
  simp only [fdivmod, floordiv, fmod]
  split_ifs <;> rfl

/-- Powers on rationals are negative exactly for a negative base and an odd
exponent. -/
theorem rat_pow_neg_iff (a : ℚ) (n : ℕ) : a ^ n < 0 ↔ a < 0 ∧ Odd n := by
  constructor
  · intro h
    rcases Nat.even_or_odd n with he | ho
    · exact absurd h (not_lt.mpr (he.pow_nonneg a))
    · exact ⟨ho.pow_neg_iff.mp h, ho⟩
  · rintro ⟨h1, h2⟩
    exact h2.pow_neg h1

/-- C2 (amended): exponentiation of a fixed-point base by a positive integer
exponent succeeds with result format `m = m_base·y`, `n = n_base·y`, the
base's signedness, the exact power as represented value, and sign following
exponent parity; a zero or negative exponent, a non-integer exponent (float
or fixed-point), and any exponentiation with a native base are fatal
(`InvalidExponent` / `UnsupportedOperator`). -/
theorem pow_spec (x : FixedPoint) (y : ℤ) (hx : wf x) :
    (1 ≤ y → ∃ r, fpow x y = .ok r ∧ r.signed = x.signed ∧ r.m = x.m * y.toNat ∧
      r.n = x.n * y.toNat ∧ val r = val x ^ y.toNat ∧
      (val r < 0 ↔ val x < 0 ∧ Odd y)) ∧
    (y ≤ 0 → fpow x y = .error .InvalidExponent) ∧
    (∀ q : ℚ, fpowE x (.float q) = .error .InvalidExponent) ∧
    (∀ z : FixedPoint, fpowE x (.fp z) = .error .InvalidExponent) ∧
    (∀ base : Operand, rpowN base =
      .error (.UnsupportedOperator "** or pow()" base.typeName "FixedPoint")) := by
  refine ⟨?_, ?_, fun _ => rfl, fun _ => rfl, fun _ => rfl⟩
  · intro hy
    obtain ⟨k, rfl⟩ : ∃ k : ℕ, y = (k : ℤ) := ⟨y.toNat, by omega⟩
    simp only [Int.toNat_natCast]
    have hk1 : 1 ≤ k := by exact_mod_cast hy
    have hw1 : 1 ≤ width x := hx.2.1
    have hrange := sval_range x hx
    have hWsplit : x.m * k + x.n * k = (x.m + x.n) * k := by ring
    have hW1 : 1 ≤ x.m * k + x.n * k := by
      rw [hWsplit]
      exact Nat.mul_pos (show 0 < x.m + x.n from hw1) (by omega)
    have hfits :
        (if x.signed = true then
          -((2 : ℤ) ^ (x.m * k + x.n * k - 1)) ≤ sval x ^ k ∧
            sval x ^ k < 2 ^ (x.m * k + x.n * k - 1)
         else 0 ≤ sval x ^ k ∧ sval x ^ k < 2 ^ (x.m * k + x.n * k)) := by
      cases hxs : x.signed with
      | false =>
        rw [hxs] at hrange
        simp only [Bool.false_eq_true, if_false] at hrange ⊢
        constructor
        · exact pow_nonneg hrange.1 k
        · calc sval x ^ k < (2 ^ width x) ^ k :=
                pow_lt_pow_left₀ hrange.2 hrange.1 (by omega)
            _ = 2 ^ (x.m * k + x.n * k) := by
                rw [← pow_mul]
                congr 1
                rw [hWsplit]
                rfl
      | true =>
        rw [hxs] at hrange
        simp only [if_true] at hrange ⊢
        have habs : |sval x| ≤ 2 ^ (width x - 1) := by
          rw [abs_le]
          exact ⟨hrange.1, hrange.2.le⟩
        have habsk : |sval x ^ k| ≤ 2 ^ ((width x - 1) * k) := by
          rw [abs_pow, pow_mul]
          exact pow_le_pow_left₀ (abs_nonneg _) habs k
        rw [abs_le] at habsk
        rcases Nat.lt_or_ge k 2 with hk2 | hk2
        · have hkeq : k = 1 := by omega
          subst hkeq
          simp only [pow_one, mul_one]
          exact ⟨hrange.1, hrange.2⟩
        · have hexp : (width x - 1) * k < x.m * k + x.n * k - 1 := by
            have h0 : width x * k = (x.m + x.n) * k := rfl
            have h1 : (width x - 1) * k = width x * k - k := by
              rw [Nat.sub_one_mul]
            have h2 : (x.m + x.n) * k = x.m * k + x.n * k := by ring
            have h3 : k ≤ width x * k := Nat.le_mul_of_pos_left k (by omega)
            omega
          have hlt : (2 : ℤ) ^ ((width x - 1) * k) < 2 ^ (x.m * k + x.n * k - 1) := by
            apply pow_lt_pow_right₀ (by norm_num)
            omega
          exact ⟨by omega, by omega⟩
    have hiff :
        sval ⟨x.signed, x.m * k, x.n * k, encode ((x.m + x.n) * k) (sval x ^ k), x.policy⟩ =
          sval x ^ k := by
      rw [← hWsplit]
      exact sval_mk x.signed (x.m * k) (x.n * k) x.policy (sval x ^ k) hW1
        (by
          cases hxs : x.signed with
          | false => rw [hxs] at hfits; simpa using hfits.1
          | true => rw [hxs] at hfits; simpa using hfits.1)
        (by
          cases hxs : x.signed with
          | false => rw [hxs] at hfits; simpa using hfits.2
          | true => rw [hxs] at hfits; simpa using hfits.2)
    have hval :
        val ⟨x.signed, x.m * k, x.n * k, encode ((x.m + x.n) * k) (sval x ^ k), x.policy⟩ =
          val x ^ k := by
      unfold val
      rw [hiff]
      push_cast
      rw [div_pow, ← pow_mul]
    refine ⟨⟨x.signed, x.m * k, x.n * k, encode ((x.m + x.n) * k) (sval x ^ k), x.policy⟩,
      ?_, rfl, rfl, rfl, hval, ?_⟩
    · unfold fpow
      rw [if_neg (by omega)]
      simp only [Int.toNat_natCast]
    · rw [hval, rat_pow_neg_iff (val x) k]
      constructor
      · rintro ⟨h1, h2⟩
        exact ⟨h1, (Int.odd_coe_nat k).mpr h2⟩
      · rintro ⟨h1, h2⟩
        exact ⟨h1, (Int.odd_coe_nat k).mp h2⟩
  · intro hy
    unfold fpow
    rw [if_pos hy]

/-- Witness for C2 at a concrete input: signed `Q2.1` with bit pattern 101₂
(value −1.5) raised to the exponent 2. -/
theorem pow_spec_witness :
    ∃ r, fpow ⟨true, 2, 1, 5, defaultPolicy⟩ 2 = .ok r ∧ r.signed = true ∧
      r.m = 2 * (2 : ℤ).toNat ∧ r.n = 1 * (2 : ℤ).toNat ∧
      val r = val ⟨true, 2, 1, 5, defaultPolicy⟩ ^ (2 : ℤ).toNat ∧
      (val r < 0 ↔ val ⟨true, 2, 1, 5, defaultPolicy⟩ < 0 ∧ Odd (2 : ℤ)) :=
  (pow_spec ⟨true, 2, 1, 5, defaultPolicy⟩ 2
    ⟨by decide, by decide, fun _ => by decide⟩).1 (by norm_num)

/-- Counterexample to C2 as stated: the claim asserts that every
non-negative integer exponent succeeds, but the exponent 0 is rejected with
`InvalidExponent` (the test-suite asserts that non-positive exponents
raise). -/
theorem pow_zero_cex :
    fpow ⟨false, 1, 0, 1, defaultPolicy⟩ 0 = .error .InvalidExponent := rfl

/-- The quotient of two well-formed values (nonzero divisor) is bounded by
`2^(num.m + den.n)` in magnitude. -/
theorem abs_div_lt (a b : FixedPoint) (ha : wf a) (hb : wf b) (hbz : b.bits ≠ 0) :
    |val a / val b| < 2 ^ (a.m + b.n) := by
  have h1 : |val a| < 2 ^ a.m := abs_val_lt a ha
  have h2 : ((2 : ℚ) ^ b.n)⁻¹ ≤ |val b| := inv_le_abs_val b hb hbz
  have hb0 : val b ≠ 0 := fun h => hbz ((val_eq_zero_iff b hb).1 h)
  have habs : (0 : ℚ) < |val b| := abs_pos.mpr hb0
  rw [abs_div, div_lt_iff₀ habs]
  calc |val a| < 2 ^ a.m := h1
    _ = 2 ^ (a.m + b.n) * (2 ^ b.n)⁻¹ := by
        rw [pow_add]
        field_simp
    _ ≤ 2 ^ (a.m + b.n) * |val b| := by
        apply mul_le_mul_of_nonneg_left h2
        positivity

/-- Value of an integer `q`, scaled by the fraction-bit count and encoded at
a format wide enough to hold it. -/
theorem val_mk_scaled (s : Bool) (m n : ℕ) (pol : Policy) (q : ℤ) (hw : 1 ≤ m + n)
    (hlo : if s = true then -((2 : ℤ) ^ (m - 1)) ≤ q else 0 ≤ q)
    (hhi : if s = true then q < 2 ^ (m - 1) else q < 2 ^ m)
    (hm : s = true → 1 ≤ m) :
    val ⟨s, m, n, encode (m + n) (q * 2 ^ n), pol⟩ = q := by
  have hp : (0 : ℤ) < 2 ^ n := by positivity
  have hsv : sval ⟨s, m, n, encode (m + n) (q * 2 ^ n), pol⟩ = q * 2 ^ n := by
    apply sval_mk s m n pol (q * 2 ^ n) hw
    · cases s with
      | false =>
        simp only [Bool.false_eq_true, if_false] at hlo ⊢
        positivity
      | true =>
        simp only [if_true] at hlo ⊢
        have hsplit : (2 : ℤ) ^ (m + n - 1) = 2 ^ (m - 1) * 2 ^ n := by
          rw [← pow_add]
          congr 1
          have := hm rfl
          omega
        rw [hsplit]
        calc -((2 : ℤ) ^ (m - 1) * 2 ^ n) = -((2 : ℤ) ^ (m - 1)) * 2 ^ n := by ring
          _ ≤ q * 2 ^ n := mul_le_mul_of_nonneg_right hlo hp.le
    · cases s with
      | false =>
        simp only [Bool.false_eq_true, if_false] at hhi ⊢
        calc q * 2 ^ n < 2 ^ m * 2 ^ n := mul_lt_mul_of_pos_right hhi hp
          _ = 2 ^ (m + n) := by rw [← pow_add]
      | true =>
        simp only [if_true] at hhi ⊢
        have hsplit : (2 : ℤ) ^ (m + n - 1) = 2 ^ (m - 1) * 2 ^ n := by
          rw [← pow_add]
          congr 1
          have := hm rfl
          omega
        rw [hsplit]
        exact mul_lt_mul_of_pos_right hhi hp
  unfold val
  rw [hsv]
  push_cast
  rw [mul_div_assoc, div_self (by positivity : ((2 : ℚ) ^ n) ≠ 0), mul_one]

/-- C1: Floor division of two fixed-point operands with nonzero divisor
yields, when either represented value is negative, a signed result at
`m = num.m + den.n + 1`, `n = den.m + num.n`, and otherwise an unsigned
result at `m = num.m + den.n`,
`n = ceil(log2(2^(den.m+num.n) - 2^(num.n-den.n)))`; in both cases the
result's represented value is the exact mathematical floor of the quotient
of the represented values.  (The unsigned-branch ceiling-log formula is a
valid bit count provided the divisor has at least one integer bit.) -/
theorem floordiv_spec (a b : FixedPoint) (ha : wf a) (hb : wf b) (hbz : b.bits ≠ 0)
    (hpol : a.policy = b.policy) (hbm : 1 ≤ b.m) :
    ∃ r, floordiv a b = .ok r ∧ val r = (⌊val a / val b⌋ : ℤ) ∧
      (val a < 0 ∨ val b < 0 →
        r.signed = true ∧ r.m = a.m + b.n + 1 ∧ r.n = b.m + a.n) ∧
      (¬(val a < 0 ∨ val b < 0) →
        r.signed = false ∧ r.m = a.m + b.n ∧ (r.n : ℤ) = Int.clog 2 (fdivArg a b)) := by
  have hnomis : ¬(a.policy ≠ b.policy ∧ a.policy.mismatch_alert = .error) :=
    fun hc => hc.1 hpol
  have habsdiv := abs_div_lt a b ha hb hbz
  rw [abs_lt] at habsdiv
  have hqlt : ⌊val a / val b⌋ < 2 ^ (a.m + b.n) := by
    apply Int.floor_lt.2
    push_cast
    exact habsdiv.2
  have hqge : -((2 : ℤ) ^ (a.m + b.n)) ≤ ⌊val a / val b⌋ := by
    apply Int.le_floor.2
    push_cast
    exact le_of_lt habsdiv.1
  by_cases hsign : val a < 0 ∨ val b < 0
  · refine ⟨⟨true, a.m + b.n + 1, b.m + a.n,
      encode (a.m + b.n + 1 + (b.m + a.n)) (⌊val a / val b⌋ * 2 ^ (b.m + a.n)), a.policy⟩,
      ?_, ?_, fun _ => ⟨rfl, rfl, rfl⟩, fun hc => absurd hsign hc⟩
    · unfold floordiv
      rw [if_neg hbz, if_neg hnomis, if_pos hsign]
    · exact val_mk_scaled true (a.m + b.n + 1) (b.m + a.n) a.policy ⌊val a / val b⌋
        (by omega) (by simpa using hqge) (by simpa using hqlt) (fun _ => by omega)
  · push_neg at hsign
    have hva : 0 ≤ val a := not_lt.mp (by exact fun h => absurd h (by simp [hsign.1]))
    have hvb0 : val b ≠ 0 := fun h => hbz ((val_eq_zero_iff b hb).1 h)
    have hvb : 0 < val b := lt_of_le_of_ne (not_lt.mp (by simp [hsign.2])) (Ne.symm hvb0)
    have hq0 : 0 ≤ ⌊val a / val b⌋ := Int.floor_nonneg.2 (div_nonneg hva hvb.le)
    have hargen : (2 : ℚ) ^ ((a.n : ℤ)) ≤ fdivArg a b := by
      unfold fdivArg
      have e1 : (2 : ℚ) ^ ((a.n : ℤ) - (b.n : ℤ)) ≤ (2 : ℚ) ^ ((a.n : ℤ)) :=
        zpow_le_zpow_right₀ (by norm_num) (by omega)
      have e2 : (2 : ℚ) ^ ((a.n : ℤ)) * 2 ≤ (2 : ℚ) ^ (((b.m + a.n : ℕ) : ℤ)) := by
        have h21 : (2 : ℚ) ^ ((a.n : ℤ)) * 2 = (2 : ℚ) ^ ((a.n : ℤ) + 1) := by
          rw [zpow_add_one₀ (by norm_num : (2 : ℚ) ≠ 0)]
        rw [h21]
        exact zpow_le_zpow_right₀ (by norm_num) (by push_cast; omega)
      have e4 : ((2 : ℚ) ^ (b.m + a.n) : ℚ) = (2 : ℚ) ^ (((b.m + a.n : ℕ) : ℤ)) :=
        (zpow_natCast 2 _).symm
      rw [e4]
      linarith
    have harg : (1 : ℚ) ≤ fdivArg a b := by
      have e3 : (1 : ℚ) ≤ (2 : ℚ) ^ ((a.n : ℤ)) := by
        rw [zpow_natCast]
        exact one_le_pow₀ (by norm_num)
      linarith
    have hclog : 0 ≤ Int.clog 2 (fdivArg a b) := by
      have h1 := Int.clog_mono_right (b := 2) (by norm_num : (0 : ℚ) < 1) harg
      rwa [Int.clog_one_right] at h1
    have hclogn : (a.n : ℤ) ≤ Int.clog 2 (fdivArg a b) := by
      have h1 := Int.clog_mono_right (b := 2)
        (by positivity : (0 : ℚ) < 2 ^ ((a.n : ℤ))) hargen
      have h2 : Int.clog 2 ((((2 : ℕ) : ℚ)) ^ ((a.n : ℤ))) = (a.n : ℤ) :=
        Int.clog_zpow (by norm_num) _
      have heq : (((2 : ℕ) : ℚ)) = (2 : ℚ) := by norm_num
      rw [heq] at h2
      omega
    have haw : 1 ≤ a.m + a.n := ha.2.1
    refine ⟨⟨false, a.m + b.n, (Int.clog 2 (fdivArg a b)).toNat,
      encode (a.m + b.n + (Int.clog 2 (fdivArg a b)).toNat)
        (⌊val a / val b⌋ * 2 ^ (Int.clog 2 (fdivArg a b)).toNat), a.policy⟩,
      ?_, ?_, fun hc => absurd hc (by push_neg; exact hsign),
      fun _ => ⟨rfl, rfl, Int.toNat_of_nonneg hclog⟩⟩
    · unfold floordiv
      rw [if_neg hbz, if_neg hnomis, if_neg (by push_neg; exact hsign)]
    · exact val_mk_scaled false (a.m + b.n) (Int.clog 2 (fdivArg a b)).toNat a.policy
        ⌊val a / val b⌋ (by omega) (by simpa using hq0) (by simpa using hqlt)
        (fun hcc => by simp at hcc)

/-- Witness for C1 at a concrete input: unsigned `Q2.1` value 101₂ (2.5)
floor-divided by unsigned `Q1.2` value 011₂ (0.75). -/
theorem floordiv_spec_witness :
    ∃ r, floordiv ⟨false, 2, 1, 5, defaultPolicy⟩ ⟨false, 1, 2, 3, defaultPolicy⟩ = .ok r ∧
      val r = ((⌊val ⟨false, 2, 1, 5, defaultPolicy⟩ /
        val ⟨false, 1, 2, 3, defaultPolicy⟩⌋ : ℤ) : ℚ) ∧
      (val ⟨false, 2, 1, 5, defaultPolicy⟩ < 0 ∨ val ⟨false, 1, 2, 3, defaultPolicy⟩ < 0 →
        r.signed = true ∧ r.m = 2 + 2 + 1 ∧ r.n = 1 + 1) ∧
      (¬(val ⟨false, 2, 1, 5, defaultPolicy⟩ < 0 ∨ val ⟨false, 1, 2, 3, defaultPolicy⟩ < 0) →
        r.signed = false ∧ r.m = 2 + 2 ∧
        (r.n : ℤ) = Int.clog 2 (fdivArg ⟨false, 2, 1, 5, defaultPolicy⟩
          ⟨false, 1, 2, 3, defaultPolicy⟩)) :=
  floordiv_spec ⟨false, 2, 1, 5, defaultPolicy⟩ ⟨false, 1, 2, 3, defaultPolicy⟩
    ⟨by decide, by decide, fun _ => by decide⟩ ⟨by decide, by decide, fun _ => by decide⟩
    (by decide) rfl (by decide)

/-- Witness for C3 at a concrete input: `0 - 1` on unsigned `Q1.0` operands
under the default policy (`overflow_alert = error`) aborts with
`Overflow`. -/
theorem unsigned_sub_overflow_witness :
    fpsub ⟨false, 1, 0, 0, defaultPolicy⟩ ⟨false, 1, 0, 1, defaultPolicy⟩ =
      .error .Overflow :=
  (unsigned_sub_overflow ⟨false, 1, 0, 0, defaultPolicy⟩ ⟨false, 1, 0, 1, defaultPolicy⟩
    rfl rfl rfl (by norm_num [val, sval, width])).1 rfl

end Fixed
